import Mathlib

/-!
Shallow embedding of the pure text-processing core of the `assistants-ai`
repository: the message chunker `splitMessage` (src/index.js), and the
helper utilities `extractDates`, `analyzeSimpleMood`, `extractKeywords`
(utils/helpers.js).  Strings are modelled as `List Char`; JavaScript
`String.prototype.split` with a two-character separator is modelled by
`split2`, `String.prototype.includes` by `containsL`.
-/

set_option autoImplicit false

namespace AssistantsAI

/-- JS `needle` is a leading substring of `hay` (`String.prototype.startsWith`). -/
def startsWithL : List Char → List Char → Bool
  | [], _ => true
  | _ :: _, [] => false
  | p :: ps, c :: cs => p == c && startsWithL ps cs

/-- JS `hay.includes(needle)`: `pat` occurs as a contiguous substring. -/
def containsL (pat : List Char) : List Char → Bool
  | [] => startsWithL pat []
  | c :: rest => startsWithL pat (c :: rest) || containsL pat rest

/-- JS `String.prototype.split` specialised to a two-character separator
`[a, b]`, scanning left to right over non-overlapping occurrences.
`split2 a b "" = [""]`, and a string with no occurrence of the separator
is returned whole, exactly as in JavaScript. -/
def split2 (a b : Char) : List Char → List (List Char)
  | [] => [[]]
  | [c] => [[c]]
  | c :: d :: rest =>
    if a == c && b == d then [] :: split2 a b rest
    else (split2 a b (d :: rest)).modifyHead (c :: ·)

/-- Join a list of segments, interposing the separator `sep` (inverse of a
separator split; used only in specifications and proofs). -/
def joinSep (sep : List Char) : List (List Char) → List Char
  | [] => []
  | [x] => x
  | x :: y :: xs => x ++ sep ++ joinSep sep (y :: xs)

/-- The paragraph delimiter `'\n\n'` used by `splitMessage`. -/
def newlinePair : List Char := ['\n', '\n']

/-- The sentence delimiter `'. '` used by `splitMessage`. -/
def dotSpace : List Char := ['.', ' ']

/-- One iteration of the inner `for (const sentence of sentences)` loop of
`splitMessage`: state is `(chunks, tempChunk)`. -/
def sentenceStep (maxLength : Nat) (st : List (List Char) × List Char)
    (sentence : List Char) : List (List Char) × List Char :=
  if st.2.length + sentence.length + 2 ≤ maxLength then
    (st.1, st.2 ++ (if st.2.isEmpty then [] else dotSpace) ++ sentence)
  else
    ((if st.2.isEmpty then st.1 else st.1 ++ [st.2 ++ ['.']]), sentence)

/-- One iteration of the outer `for (const paragraph of paragraphs)` loop of
`splitMessage`: state is `(chunks, currentChunk)`.  Note that in the source
`currentChunk` is pushed but not cleared, and is only overwritten by
`tempChunk` when the latter is non-empty. -/
def paragraphStep (maxLength : Nat) (st : List (List Char) × List Char)
    (paragraph : List Char) : List (List Char) × List Char :=
  if st.2.length + paragraph.length + 2 ≤ maxLength then
    (st.1, st.2 ++ (if st.2.isEmpty then [] else newlinePair) ++ paragraph)
  else
    let chunks1 := if st.2.isEmpty then st.1 else st.1 ++ [st.2]
    if paragraph.length ≤ maxLength then
      (chunks1, paragraph)
    else
      let packed := (split2 '.' ' ' paragraph).foldl (sentenceStep maxLength) (chunks1, [])
      (packed.1, if packed.2.isEmpty then st.2 else packed.2)

/-- `splitMessage(message, maxLength)` from src/index.js (the JS default for
`maxLength` is 2000; here it is always passed explicitly). -/
def splitMessage (message : List Char) (maxLength : Nat) : List (List Char) :=
  let final := (split2 '\n' '\n' message).foldl (paragraphStep maxLength) ([], [])
  if final.2.isEmpty then final.1 else final.1 ++ [final.2]

/-! ### Mood classifier (utils/helpers.js, `analyzeSimpleMood`) -/

/-- The fixed positive-keyword list of `analyzeSimpleMood`. -/
def positiveWords : List (List Char) :=
  ["嬉しい".data, "楽しい".data, "ありがとう".data, "感謝".data, "好き".data,
   "良い".data, "うれしい".data, "素晴らしい".data, "幸せ".data, "成功".data]

/-- The fixed negative-keyword list of `analyzeSimpleMood`. -/
def negativeWords : List (List Char) :=
  ["悲しい".data, "辛い".data, "嫌い".data, "残念".data, "失敗".data,
   "だめ".data, "最悪".data, "不安".data, "怒り".data, "つらい".data]

/-- `positiveCount` of `analyzeSimpleMood`: number of positive keywords `w`
with `text.includes(w)`. -/
def positiveCount (text : List Char) : Nat :=
  positiveWords.countP (fun w => containsL w text)

/-- `negativeCount` of `analyzeSimpleMood`. -/
def negativeCount (text : List Char) : Nat :=
  negativeWords.countP (fun w => containsL w text)

/-- `analyzeSimpleMood(text)` from utils/helpers.js. -/
def analyzeSimpleMood (text : List Char) : String :=
  if positiveCount text > negativeCount text then "positive"
  else if negativeCount text > positiveCount text then "negative"
  else "neutral"

/-! ### Date extractor (utils/helpers.js, `extractDates`)

The two regular expressions `/(\d{4})[-\/](\d{1,2})[-\/](\d{1,2})/g` and
`/(\d{4})年\s*(\d{1,2})月\s*(\d{1,2})日/g` are modelled by explicit
left-to-right scanners over non-overlapping matches; the `{1,2}`
quantifiers are greedy with the one backtracking step JavaScript performs
(two digits are preferred, one digit is retried when the following
delimiter fails to match).  `new Date()` and its `setDate` offsets are
modelled by three explicit `SimpleDate` parameters standing for the
current system day and the two following days; `formatDate(d, 'iso')`
(`toISOString().split('T')[0]`) is `isoDateString`. -/

/-- JS `\d`, i.e. the characters `'0'`–`'9'` (code points 48–57). -/
def isDigitCh (c : Char) : Bool := 48 ≤ c.toNat && c.toNat ≤ 57

/-- The character class `[-\/]` of the numeric date pattern. -/
def isSepCh (c : Char) : Bool := c == '-' || c == '/'

/-- Numeric value of a digit character. -/
def digitVal (c : Char) : Nat := c.toNat - 48

/-- A subset of JS `\s` sufficient for the texts in scope: space, tab,
newline, carriage return, vertical tab, form feed, no-break space and
ideographic space. -/
def isJsSpace (c : Char) : Bool :=
  c == ' ' || c == '\t' || c == '\n' || c == '\r' ||
  c == '\x0b' || c == '\x0c' || c == ' ' || c == '　'

/-- Match `(\d{1,2})` followed by `[-\/]`, greedily preferring two digits;
returns the value and the remaining input after the separator. -/
def matchNumSep : List Char → Option (Nat × List Char)
  | d1 :: d2 :: s :: rest =>
    if isDigitCh d1 && isDigitCh d2 && isSepCh s then
      some (10 * digitVal d1 + digitVal d2, rest)
    else if isDigitCh d1 && isSepCh d2 then some (digitVal d1, s :: rest)
    else none
  | [d1, s] => if isDigitCh d1 && isSepCh s then some (digitVal d1, []) else none
  | _ => none

/-- Match the trailing `(\d{1,2})` of the numeric date pattern (greedy, no
following constraint). -/
def matchDayNum : List Char → Option (Nat × List Char)
  | d1 :: d2 :: rest =>
    if isDigitCh d1 && isDigitCh d2 then some (10 * digitVal d1 + digitVal d2, rest)
    else if isDigitCh d1 then some (digitVal d1, d2 :: rest)
    else none
  | [d1] => if isDigitCh d1 then some (digitVal d1, []) else none
  | [] => none

/-- Value of four digit characters read as a year. -/
def yearVal (y1 y2 y3 y4 : Char) : Nat :=
  1000 * digitVal y1 + 100 * digitVal y2 + 10 * digitVal y3 + digitVal y4

/-- Attempt to match `(\d{4})[-\/](\d{1,2})[-\/](\d{1,2})` at the head of the
input; on success returns `(year, month, day, rest-after-match)`. -/
def matchISOAt : List Char → Option (Nat × Nat × Nat × List Char)
  | y1 :: y2 :: y3 :: y4 :: s :: rest =>
    if isDigitCh y1 && isDigitCh y2 && isDigitCh y3 && isDigitCh y4 && isSepCh s then
      match matchNumSep rest with
      | some (m, rest2) =>
        match matchDayNum rest2 with
        | some (d, rest3) => some (yearVal y1 y2 y3 y4, m, d, rest3)
        | none => none
      | none => none
    else none
  | _ => none

/-- Match `(\d{1,2})` followed by the literal `marker` character (`'月'` or
`'日'`), greedily preferring two digits. -/
def matchJaNum (marker : Char) : List Char → Option (Nat × List Char)
  | d1 :: d2 :: m :: rest =>
    if isDigitCh d1 && isDigitCh d2 && m == marker then
      some (10 * digitVal d1 + digitVal d2, rest)
    else if isDigitCh d1 && d2 == marker then some (digitVal d1, m :: rest)
    else none
  | [d1, m] => if isDigitCh d1 && m == marker then some (digitVal d1, []) else none
  | _ => none

/-- Attempt to match `(\d{4})年\s*(\d{1,2})月\s*(\d{1,2})日` at the head of
the input. -/
def matchJaAt : List Char → Option (Nat × Nat × Nat × List Char)
  | y1 :: y2 :: y3 :: y4 :: k :: rest =>
    if isDigitCh y1 && isDigitCh y2 && isDigitCh y3 && isDigitCh y4 && k == '年' then
      match matchJaNum '月' (rest.dropWhile isJsSpace) with
      | some (m, rest2) =>
        match matchJaNum '日' (rest2.dropWhile isJsSpace) with
        | some (d, rest3) => some (yearVal y1 y2 y3 y4, m, d, rest3)
        | none => none
      | none => none
    else none
  | _ => none

/-- Fuel-indexed scan over all non-overlapping matches, advancing by one
character after a failed attempt and past the match after a successful one
(the `while ((match = pattern.exec(text)) !== null)` loop).  Every step
consumes at least one character, so fuel equal to the input length always
suffices. -/
def scanGo (matchAt : List Char → Option (Nat × Nat × Nat × List Char)) :
    Nat → List Char → List (Nat × Nat × Nat)
  | 0, _ => []
  | _ + 1, [] => []
  | fuel + 1, c :: rest =>
    match matchAt (c :: rest) with
    | some (y, m, d, rem) => (y, m, d) :: scanGo matchAt fuel rem
    | none => scanGo matchAt fuel rest

/-- All `(year, month, day)` matches of `matchAt` in the text, in order. -/
def scanDates (matchAt : List Char → Option (Nat × Nat × Nat × List Char))
    (l : List Char) : List (Nat × Nat × Nat) :=
  scanGo matchAt l.length l

/-- A calendar date as read off the system clock (`new Date()` and friends). -/
structure SimpleDate where
  year : Nat
  month : Nat
  day : Nat

/-- JS `String.prototype.padStart(width, '0')`. -/
def padZeros (width : Nat) (s : List Char) : List Char :=
  List.replicate (width - s.length) '0' ++ s

/-- `` `${n}`.padStart(2, '0') `` for a natural number `n`. -/
def pad2 (n : Nat) : List Char := padZeros 2 (Nat.toDigits 10 n)

/-- The template literal `` `${year}-${month…padStart(2,'0')}-${day…}` ``
used for every regex match that passes the range check. -/
def fmtDate (y m d : Nat) : List Char :=
  Nat.toDigits 10 y ++ '-' :: (pad2 m ++ '-' :: pad2 d)

/-- `formatDate(date, 'iso')`, i.e. `date.toISOString().split('T')[0]`:
zero-padded `YYYY-MM-DD`. -/
def isoDateString (d : SimpleDate) : List Char :=
  padZeros 4 (Nat.toDigits 10 d.year) ++ '-' :: (pad2 d.month ++ '-' :: pad2 d.day)

/-- JS `[...new Set(xs)]`: deduplicate keeping first occurrences in order. -/
def dedupKeepFirst {α : Type} [DecidableEq α] : List α → List α :=
  go []
where
  go (seen : List α) : List α → List α
    | [] => []
    | x :: xs => if x ∈ seen then go seen xs else x :: go (x :: seen) xs

/-- `extractDates(text)` from utils/helpers.js.  The three `SimpleDate`
parameters model the ambient system dates read by the relative-keyword
branch (`new Date()` for 今日, plus one day for 明日, plus two for 明後日). -/
def extractDates (today tomorrow dayAfterTomorrow : SimpleDate)
    (text : List Char) : List (List Char) :=
  let isoDates := (scanDates matchISOAt text).filterMap (fun t =>
    if 1 ≤ t.2.1 ∧ t.2.1 ≤ 12 ∧ 1 ≤ t.2.2 ∧ t.2.2 ≤ 31 then
      some (fmtDate t.1 t.2.1 t.2.2) else none)
  let jaDates := (scanDates matchJaAt text).filterMap (fun t =>
    if 1 ≤ t.2.1 ∧ t.2.1 ≤ 12 ∧ 1 ≤ t.2.2 ∧ t.2.2 ≤ 31 then
      some (fmtDate t.1 t.2.1 t.2.2) else none)
  let todayDates := if containsL "今日".data text then [isoDateString today] else []
  let tomorrowDates := if containsL "明日".data text then [isoDateString tomorrow] else []
  let dayAfterDates :=
    if containsL "明後日".data text then [isoDateString dayAfterTomorrow] else []
  dedupKeepFirst (isoDates ++ jaDates ++ todayDates ++ tomorrowDates ++ dayAfterDates)

/-- The property claimed of every extracted date: a non-empty all-digit year
part, a dash, a two-digit month in 01–12, a dash, and a two-digit day in
01–31 — with no validation of the day against the calendar length of the
month. -/
def isNormalizedDate (s : List Char) : Prop :=
  ∃ ypart m d, ypart ≠ [] ∧ (∀ c ∈ ypart, isDigitCh c = true) ∧
    1 ≤ m ∧ m ≤ 12 ∧ 1 ≤ d ∧ d ≤ 31 ∧
    s = ypart ++ '-' :: (pad2 m ++ '-' :: pad2 d)

/-- The system clock always yields month and day components in range. -/
def validRange (d : SimpleDate) : Prop :=
  1 ≤ d.month ∧ d.month ≤ 12 ∧ 1 ≤ d.day ∧ d.day ≤ 31

instance (d : SimpleDate) : Decidable (validRange d) := by
  unfold validRange
  infer_instance

/-! ### Keyword extractor (utils/helpers.js, `extractKeywords`) -/

/-- JS `String.prototype.toLowerCase`, restricted to the ASCII letters; the
properties proved below do not depend on the case mapping of any other
character. -/
def toLowerChar (c : Char) : Char :=
  if 65 ≤ c.toNat ∧ c.toNat ≤ 90 then Char.ofNat (c.toNat + 32) else c

mutual

/-- JS `text.split(/\s+/)`: split on maximal whitespace runs.  A leading or
trailing run contributes an empty segment, exactly as in JavaScript. -/
def splitWs : List Char → List (List Char)
  | [] => [[]]
  | c :: rest =>
    if isJsSpace c then [] :: skipWs rest
    else (splitWs rest).modifyHead (c :: ·)

/-- Continue `splitWs` while inside a whitespace run. -/
def skipWs : List Char → List (List Char)
  | [] => [[]]
  | c :: rest =>
    if isJsSpace c then skipWs rest
    else (splitWs rest).modifyHead (c :: ·)

end

/-- The fixed stop-word list of `extractKeywords`. -/
def stopWords : List (List Char) :=
  ["は".data, "が".data, "の".data, "を".data, "に".data, "で".data, "と".data,
   "た".data, "し".data, "です".data, "ます".data, "から".data, "など".data,
   "それ".data]

/-- `extractKeywords(text)` from utils/helpers.js: lowercase, split on
whitespace, keep words of length at least two that are not stop words, and
return at most the first ten. -/
def extractKeywords (text : List Char) : List (List Char) :=
  let words := splitWs (text.map toLowerChar)
  (words.filter (fun w => decide (2 ≤ w.length) && !(stopWords.contains w))).take 10

/-- Maximum of a list of naturals (used by the amended chunk-length bound). -/
def maxNat : List Nat → Nat
  | [] => 0
  | n :: ns => Nat.max n (maxNat ns)

/-- The length of the longest `'. '`-separated sentence within the
`'\n\n'`-separated paragraphs of the message. -/
def maxSentenceLen (message : List Char) : Nat :=
  maxNat ((split2 '\n' '\n' message).map
    (fun p => maxNat ((split2 '.' ' ' p).map List.length)))

/-! ## Generic helper lemmas -/

theorem foldl_preserve {σ α : Type} (f : σ → α → σ) (P : σ → Prop) :
    ∀ (l : List α) (s : σ), (∀ t a, a ∈ l → P t → P (f t a)) → P s → P (l.foldl f s) := by
  intro l
  induction l with
  | nil => exact fun s _ hs => hs
  | cons a l ih =>
    intro s h hs
    exact ih (f s a) (fun t b hb ht => h t b (List.mem_cons_of_mem a hb) ht)
      (h s a (List.mem_cons_self a l) hs)

/-! ## Claim C8: no chunk is empty -/

theorem sentenceStep_chunks_ne_nil (maxLength : Nat) (st : List (List Char) × List Char)
    (s : List Char) (h : ∀ c ∈ st.1, c ≠ []) :
    ∀ c ∈ (sentenceStep maxLength st s).1, c ≠ [] := by
  unfold sentenceStep
  split
  · exact h
  · split
    · exact h
    · intro c hc
      rcases List.mem_append.mp hc with hc | hc
      · exact h c hc
      · rcases List.mem_singleton.mp hc with rfl
        simp

theorem paragraphStep_chunks_ne_nil (maxLength : Nat) (st : List (List Char) × List Char)
    (p : List Char) (h : ∀ c ∈ st.1, c ≠ []) :
    ∀ c ∈ (paragraphStep maxLength st p).1, c ≠ [] := by
  have h1 : ∀ c ∈ (if st.2.isEmpty then st.1 else st.1 ++ [st.2]), c ≠ [] := by
    split
    · exact h
    · next hemp =>
      intro c hc
      rcases List.mem_append.mp hc with hc | hc
      · exact h c hc
      · rcases List.mem_singleton.mp hc with rfl
        simpa [List.isEmpty_iff] using hemp
  simp only [paragraphStep]
  split
  · exact h
  · split
    · exact h1
    · exact
        (foldl_preserve (sentenceStep maxLength) (fun t => ∀ c ∈ t.1, c ≠ [])
          (split2 '.' ' ' p) _
          (fun t a _ ht => sentenceStep_chunks_ne_nil maxLength t a ht) h1)

/-- Claim C8: for every input string and every maximum, no element of the
sequence returned by `splitMessage` is the empty string. -/
theorem C8_no_empty_chunk (message : List Char) (maxLength : Nat) :
    ∀ c ∈ splitMessage message maxLength, c ≠ [] := by
  have hfold : ∀ c ∈ ((split2 '\n' '\n' message).foldl (paragraphStep maxLength)
      ([], [])).1, c ≠ [] :=
    foldl_preserve (paragraphStep maxLength) (fun t => ∀ c ∈ t.1, c ≠ [])
      (split2 '\n' '\n' message) ([], [])
      (fun t a _ ht => paragraphStep_chunks_ne_nil maxLength t a ht) (by simp)
  simp only [splitMessage]
  split
  · exact hfold
  · next hemp =>
    intro c hc
    rcases List.mem_append.mp hc with hc | hc
    · exact hfold c hc
    · rcases List.mem_singleton.mp hc with rfl
      simpa [List.isEmpty_iff] using hemp

/-- Witness for C8 at a concrete input. -/
theorem C8_witness :
    "ab".data ∈ splitMessage "ab".data 10 ∧ "ab".data ≠ [] :=
  ⟨by decide, C8_no_empty_chunk "ab".data 10 "ab".data (by decide)⟩

/-! ## Claim C2: reconstruction (code bug)

A paragraph whose `'. '`-split consists solely of empty sentences leaves
`tempChunk` empty, so `currentChunk` — which was already pushed and never
cleared — survives and is pushed again, while the paragraph itself is
dropped.  Evaluating the code at the failing inputs: -/

/-- Claim C2: evaluation of `splitMessage` at inputs where the code drops a
paragraph (first conjunct) and duplicates an already-emitted chunk (second
conjunct), contradicting the specified no-loss/no-duplication invariant. -/
theorem C2_failing_eval :
    splitMessage ". . . . ".data 4 = [] ∧
    splitMessage "AB\n\n. . . . ".data 4 = ["AB".data, "AB".data] := by decide

/-! ## Claim C1: chunk length bound -/

/-- Claim C1, as stated, is false: with `max = 10` the input
`"abcd. efgh. xyzw"` produces the chunk `"abcd. efgh."` of length 11,
because a chunk closed at a sentence boundary gets `'.'` appended after the
length check already used up the whole budget. -/
theorem C1_counterexample :
    ¬ ∀ c ∈ splitMessage "abcd. efgh. xyzw".data 10, c.length ≤ 10 := by decide

theorem le_maxNat_of_mem {n : Nat} : ∀ {ns : List Nat}, n ∈ ns → n ≤ maxNat ns := by
  intro ns
  induction ns with
  | nil => intro h; cases h
  | cons m ms ih =>
    intro h
    rcases List.mem_cons.mp h with rfl | h
    · exact Nat.le_max_left _ _
    · exact le_trans (ih h) (Nat.le_max_right _ _)

theorem sentenceStep_bound (maxLength B : Nat) (hB : maxLength ≤ B)
    (st : List (List Char) × List Char) (s : List Char) (hs : s.length ≤ B)
    (h : (∀ c ∈ st.1, c.length ≤ B + 1) ∧ st.2.length ≤ B) :
    (∀ c ∈ (sentenceStep maxLength st s).1, c.length ≤ B + 1) ∧
      (sentenceStep maxLength st s).2.length ≤ B := by
  obtain ⟨h1, h2⟩ := h
  unfold sentenceStep
  split
  · next hcond =>
    refine ⟨h1, ?_⟩
    simp only [List.length_append]
    split
    · next hemp =>
      have hz : st.2.length = 0 := by
        simp [List.isEmpty_iff] at hemp
        simp [hemp]
      simp only [List.length_nil]
      omega
    · simp only [dotSpace, List.length_cons, List.length_nil]
      omega
  · next hcond =>
    refine ⟨?_, hs⟩
    split
    · exact h1
    · intro c hc
      rcases List.mem_append.mp hc with hc | hc
      · exact h1 c hc
      · rcases List.mem_singleton.mp hc with rfl
        simp only [List.length_append, List.length_cons, List.length_nil]
        omega

theorem paragraphStep_bound (maxLength B : Nat) (hB : maxLength ≤ B)
    (st : List (List Char) × List Char) (p : List Char)
    (hsent : ∀ s ∈ split2 '.' ' ' p, s.length ≤ B)
    (h : (∀ c ∈ st.1, c.length ≤ B + 1) ∧ st.2.length ≤ B) :
    (∀ c ∈ (paragraphStep maxLength st p).1, c.length ≤ B + 1) ∧
      (paragraphStep maxLength st p).2.length ≤ B := by
  obtain ⟨h1, h2⟩ := h
  have hchunks1 : ∀ c ∈ (if st.2.isEmpty then st.1 else st.1 ++ [st.2]),
      c.length ≤ B + 1 := by
    split
    · exact h1
    · intro c hc
      rcases List.mem_append.mp hc with hc | hc
      · exact h1 c hc
      · rcases List.mem_singleton.mp hc with rfl
        omega
  simp only [paragraphStep]
  split
  · next hcond =>
    refine ⟨h1, ?_⟩
    simp only [List.length_append]
    split
    · next hemp =>
      have hz : st.2.length = 0 := by
        simp [List.isEmpty_iff] at hemp
        simp [hemp]
      simp only [List.length_nil]
      omega
    · simp only [newlinePair, List.length_cons, List.length_nil]
      omega
  · split
    · next hple => exact ⟨hchunks1, by show p.length ≤ B; omega⟩
    · next hple =>
      have hfold := foldl_preserve (sentenceStep maxLength)
        (fun t => (∀ c ∈ t.1, c.length ≤ B + 1) ∧ t.2.length ≤ B)
        (split2 '.' ' ' p) ((if st.2.isEmpty then st.1 else st.1 ++ [st.2]), [])
        (fun t a ha ht => sentenceStep_bound maxLength B hB t a (hsent a ha) ht)
        ⟨hchunks1, by simp⟩
      refine ⟨hfold.1, ?_⟩
      show (if (List.foldl (sentenceStep maxLength)
            ((if st.2.isEmpty then st.1 else st.1 ++ [st.2]), [])
            (split2 '.' ' ' p)).2.isEmpty = true then st.2
          else (List.foldl (sentenceStep maxLength)
            ((if st.2.isEmpty then st.1 else st.1 ++ [st.2]), [])
            (split2 '.' ' ' p)).2).length ≤ B
      by_cases hpe : (List.foldl (sentenceStep maxLength)
            ((if st.2.isEmpty then st.1 else st.1 ++ [st.2]), [])
            (split2 '.' ' ' p)).2.isEmpty = true
      · rw [if_pos hpe]; exact h2
      · rw [if_neg hpe]; exact hfold.2

/-- Claim C1 (amended): every chunk returned by `splitMessage` has length at
most `max maxLength L + 1`, where `L` is the length of the longest
`'. '`-separated sentence of the input; the original bound `maxLength` fails
both on oversized single sentences and on the extra `'.'` appended at a
sentence-boundary chunk. -/
theorem C1_amended_length_bound (message : List Char) (maxLength : Nat) :
    ∀ c ∈ splitMessage message maxLength,
      c.length ≤ Nat.max maxLength (maxSentenceLen message) + 1 := by
  have hmaxB : maxLength ≤ Nat.max maxLength (maxSentenceLen message) :=
    Nat.le_max_left _ _
  have hsent : ∀ p ∈ split2 '\n' '\n' message, ∀ s ∈ split2 '.' ' ' p,
      s.length ≤ Nat.max maxLength (maxSentenceLen message) := by
    intro p hp s hs
    have hx : s.length ≤ maxNat ((split2 '.' ' ' p).map List.length) :=
      le_maxNat_of_mem (List.mem_map_of_mem List.length hs)
    have hy : maxNat ((split2 '.' ' ' p).map List.length) ≤ maxSentenceLen message :=
      le_maxNat_of_mem
        (List.mem_map_of_mem (fun q => maxNat ((split2 '.' ' ' q).map List.length)) hp)
    exact le_trans hx (le_trans hy (Nat.le_max_right _ _))
  have hfold := foldl_preserve (paragraphStep maxLength)
    (fun t => (∀ c ∈ t.1, c.length ≤ Nat.max maxLength (maxSentenceLen message) + 1) ∧
      t.2.length ≤ Nat.max maxLength (maxSentenceLen message))
    (split2 '\n' '\n' message) ([], [])
    (fun t a ha ht => paragraphStep_bound maxLength _ hmaxB t a (hsent a ha) ht)
    ⟨by simp, by simp⟩
  simp only [splitMessage]
  split
  · exact hfold.1
  · intro c hc
    rcases List.mem_append.mp hc with hc | hc
    · exact hfold.1 c hc
    · rcases List.mem_singleton.mp hc with rfl
      have := hfold.2
      omega

/-- Witness for the amended C1 at a concrete input, including the chunk that
attains the bound `max 10 4 + 1 = 11`. -/
theorem C1_amended_witness :
    "abcd. efgh.".data ∈ splitMessage "abcd. efgh. xyzw".data 10 ∧
    "abcd. efgh.".data.length ≤
      Nat.max 10 (maxSentenceLen "abcd. efgh. xyzw".data) + 1 :=
  ⟨by decide,
    C1_amended_length_bound "abcd. efgh. xyzw".data 10 "abcd. efgh.".data (by decide)⟩

/-! ## Splitting and joining lemmas (for C3 and C7) -/

theorem split2_ne_nil (a b : Char) (l : List Char) : split2 a b l ≠ [] := by
  induction l using split2.induct a b with
  | case1 => simp [split2]
  | case2 c => simp [split2]
  | case3 c d rest h ih => simp [split2, h]
  | case4 c d rest h ih =>
    simp only [split2, h, if_neg]
    cases hh : split2 a b (d :: rest) with
    | nil => exact absurd hh ih
    | cons x xs => simp

theorem joinSep_modifyHead (sep : List Char) (c : Char) (ls : List (List Char))
    (h : ls ≠ []) :
    joinSep sep (ls.modifyHead (c :: ·)) = c :: joinSep sep ls := by
  cases ls with
  | nil => exact absurd rfl h
  | cons x xs =>
    cases xs with
    | nil => rfl
    | cons y ys => rfl

theorem join_split2 (a b : Char) (l : List Char) :
    joinSep [a, b] (split2 a b l) = l := by
  induction l using split2.induct a b with
  | case1 => rfl
  | case2 c => rfl
  | case3 c d rest h ih =>
    obtain ⟨rfl, rfl⟩ : a = c ∧ b = d := by simpa [Bool.and_eq_true] using h
    simp only [split2]
    rw [if_pos (show (a == a && b == b) = true by simp)]
    rcases hx : split2 a b rest with _ | ⟨x, xs⟩
    · exact absurd hx (split2_ne_nil a b rest)
    · rw [hx] at ih
      show [] ++ [a, b] ++ joinSep [a, b] (x :: xs) = a :: b :: rest
      rw [ih]
      rfl
  | case4 c d rest h ih =>
    have hcond : (a == c && b == d) = false := by
      cases hab : (a == c && b == d) with
      | false => rfl
      | true => exact absurd hab (by simpa using h)
    simp only [split2, hcond, Bool.false_eq_true, if_neg, not_false_iff]
    rw [joinSep_modifyHead [a, b] c _ (split2_ne_nil a b (d :: rest)), ih]

theorem head_le_joinSep_length (sep x : List Char) (xs : List (List Char)) :
    x.length ≤ (joinSep sep (x :: xs)).length := by
  cases xs with
  | nil => simp [joinSep]
  | cons y ys => simp [joinSep]

theorem joinSep_append_head (sep x y : List Char) (xs : List (List Char)) :
    joinSep sep ((x ++ sep ++ y) :: xs) = x ++ sep ++ joinSep sep (y :: xs) := by
  cases xs with
  | nil => rfl
  | cons z zs => simp [joinSep, List.append_assoc]

theorem split2_head_ne_nil (a b : Char) (l : List Char) (hne : l ≠ [])
    (hstart : startsWithL [a, b] l = false) :
    ∃ p rest, split2 a b l = p :: rest ∧ p ≠ [] := by
  cases l with
  | nil => exact absurd rfl hne
  | cons c cs =>
    cases cs with
    | nil => exact ⟨[c], [], rfl, by simp⟩
    | cons d rest =>
      have hcond : (a == c && b == d) = false := by
        cases hab : (a == c && b == d) with
        | false => rfl
        | true =>
          rw [startsWithL] at hstart
          obtain ⟨h1, h2⟩ := Bool.and_eq_true_iff.mp hab
          rw [h1, Bool.true_and, startsWithL, h2, Bool.true_and, startsWithL] at hstart
          exact absurd hstart (by simp)
      rcases hx : split2 a b (d :: rest) with _ | ⟨x, xs⟩
      · exact absurd hx (split2_ne_nil a b (d :: rest))
      · refine ⟨c :: x, xs, ?_, by simp⟩
        simp only [split2, hcond, Bool.false_eq_true, if_neg, not_false_iff]
        rw [hx]
        rfl

/-- If the separator does not occur in `l`, the split returns `l` whole. -/
theorem split2_of_not_contains (a b : Char) (l : List Char)
    (h : containsL [a, b] l = false) : split2 a b l = [l] := by
  induction l using split2.induct a b with
  | case1 => rfl
  | case2 c => rfl
  | case3 c d rest hc ih =>
    exfalso
    obtain ⟨h1, h2⟩ := Bool.and_eq_true_iff.mp hc
    rw [containsL, startsWithL, h1, Bool.true_and, startsWithL, h2, Bool.true_and,
      startsWithL, Bool.true_or] at h
    exact absurd h (by simp)
  | case4 c d rest hc ih =>
    have hcond : (a == c && b == d) = false := by
      cases hab : (a == c && b == d) with
      | false => rfl
      | true => exact absurd hab (by simpa using hc)
    have htail : containsL [a, b] (d :: rest) = false := by
      rw [containsL, Bool.or_eq_false_iff] at h
      exact h.2
    simp only [split2, hcond, Bool.false_eq_true, if_neg, not_false_iff]
    rw [ih htail]
    rfl

/-! ## Claim C3: short inputs come back whole -/

/-- Claim C3, as stated, is false at two inputs of length at most the
maximum: a string consisting of the paragraph delimiter alone, and the
empty string; both return `[]` rather than the singleton of the input. -/
theorem C3_counterexample :
    ("\n\n".data.length ≤ 10 ∧ splitMessage "\n\n".data 10 ≠ ["\n\n".data]) ∧
    (List.length ([] : List Char) ≤ 10 ∧ splitMessage [] 10 ≠ [[]]) := by decide

theorem foldl_pack (maxLength : Nat) :
    ∀ (rest : List (List Char)) (cur : List Char), cur ≠ [] →
      (joinSep newlinePair (cur :: rest)).length ≤ maxLength →
      rest.foldl (paragraphStep maxLength) ([], cur) =
        ([], joinSep newlinePair (cur :: rest)) := by
  intro rest
  induction rest with
  | nil => intro cur _ _; rfl
  | cons p rest' ih =>
    intro cur hc hlen
    have hemp : cur.isEmpty = false := by
      cases cur
      · exact absurd rfl hc
      · rfl
    have hple : cur.length + p.length + 2 ≤ maxLength := by
      have h1 : p.length ≤ (joinSep newlinePair (p :: rest')).length :=
        head_le_joinSep_length newlinePair p rest'
      have h2 : (joinSep newlinePair (cur :: p :: rest')).length =
          cur.length + 2 + (joinSep newlinePair (p :: rest')).length := by
        show (cur ++ newlinePair ++ joinSep newlinePair (p :: rest')).length = _
        simp only [List.length_append, newlinePair, List.length_cons, List.length_nil]
      omega
    have hjoine : joinSep newlinePair ((cur ++ newlinePair ++ p) :: rest') =
        joinSep newlinePair (cur :: p :: rest') := by
      rw [joinSep_append_head]
      rfl
    show List.foldl (paragraphStep maxLength)
        (paragraphStep maxLength ([], cur) p) rest' = _
    rw [show paragraphStep maxLength ([], cur) p = ([], cur ++ newlinePair ++ p) from by
      simp [paragraphStep, hple, hemp]]
    rw [ih (cur ++ newlinePair ++ p) (by simp [newlinePair])
      (by rw [hjoine]; exact hlen), hjoine]

/-- Claim C3 (amended): for every non-empty string that does not begin with
the paragraph delimiter `'\n\n'` and whose length is at most the maximum,
`splitMessage` returns the one-element sequence holding the input. -/
theorem C3_amended_singleton (s : List Char) (maxLength : Nat) (hne : s ≠ [])
    (hstart : startsWithL newlinePair s = false) (hlen : s.length ≤ maxLength) :
    splitMessage s maxLength = [s] := by
  obtain ⟨p1, rest, hsplit, hp1⟩ := split2_head_ne_nil '\n' '\n' s hne hstart
  have hjoin : joinSep newlinePair (p1 :: rest) = s := by
    rw [← hsplit]
    exact join_split2 '\n' '\n' s
  have hp1len : p1.length ≤ maxLength := by
    have h1 := head_le_joinSep_length newlinePair p1 rest
    rw [hjoin] at h1
    omega
  have hfirst : paragraphStep maxLength ([], []) p1 = ([], p1) := by
    by_cases hcond : p1.length + 2 ≤ maxLength <;>
      simp [paragraphStep, hcond, hp1len]
  have hfold : List.foldl (paragraphStep maxLength) ([], []) (p1 :: rest) = ([], s) := by
    show List.foldl (paragraphStep maxLength)
      (paragraphStep maxLength ([], []) p1) rest = ([], s)
    rw [hfirst, foldl_pack maxLength rest p1 hp1 (by rw [hjoin]; exact hlen), hjoin]
  have hemp : s.isEmpty = false := by
    cases s
    · exact absurd rfl hne
    · rfl
  simp only [splitMessage]
  rw [hsplit, hfold]
  simp [hemp]

/-- Witness for the amended C3 at the concrete input of the specification,
`chunk("A\n\nB", 2000) = ["A\n\nB"]`. -/
theorem C3_amended_witness : splitMessage "A\n\nB".data 2000 = ["A\n\nB".data] :=
  C3_amended_singleton "A\n\nB".data 2000 (by decide) (by decide) (by decide)

/-! ## Claim C7: oversized undividable paragraph -/

/-- Claim C7: a 25-character single-paragraph string containing neither the
paragraph delimiter `'\n\n'` nor the sentence delimiter `'. '` is returned
by `splitMessage(P, 10)` as exactly one chunk equal to `P`: the oversized
undividable paragraph is neither truncated nor subdivided. -/
theorem C7_oversized_single_sentence (P : List Char) (hlen : P.length = 25)
    (hnl : containsL newlinePair P = false) (hdot : containsL dotSpace P = false) :
    splitMessage P 10 = [P] := by
  have hnl2 : split2 '\n' '\n' P = [P] := split2_of_not_contains '\n' '\n' P hnl
  have hdot2 : split2 '.' ' ' P = [P] := split2_of_not_contains '.' ' ' P hdot
  have hemp : P.isEmpty = false := by
    cases P
    · simp at hlen
    · rfl
  have hstep : paragraphStep 10 ([], []) P = ([], P) := by
    simp only [paragraphStep]
    rw [if_neg (by simp [hlen]), if_neg (by simp [hlen]), hdot2]
    show ((sentenceStep 10 ([], []) P).1,
      if (sentenceStep 10 ([], []) P).2.isEmpty = true then []
      else (sentenceStep 10 ([], []) P).2) = ([], P)
    rw [show sentenceStep 10 ([], []) P = ([], P) from by
      simp [sentenceStep, hlen]]
    simp [hemp]
  have hfold : List.foldl (paragraphStep 10) ([], []) [P] = ([], P) := hstep
  simp only [splitMessage]
  rw [hnl2, hfold]
  simp [hemp]

/-- Witness for C7 at a concrete 25-character paragraph. -/
theorem C7_witness : splitMessage "aaaaaaaaaaaaaaaaaaaaaaaaa".data 10 =
    ["aaaaaaaaaaaaaaaaaaaaaaaaa".data] :=
  C7_oversized_single_sentence "aaaaaaaaaaaaaaaaaaaaaaaaa".data
    (by decide) (by decide) (by decide)

/-! ## Claim C4: mood classification -/

/-- Claim C4: `analyzeSimpleMood` returns `positive` exactly when the
positive-keyword count strictly exceeds the negative one, `negative`
exactly in the opposite case, and `neutral` exactly on a tie; and the three
documented examples evaluate as specified. -/
theorem C4_mood_classification :
    (∀ text : List Char,
      (analyzeSimpleMood text = "positive" ↔ negativeCount text < positiveCount text) ∧
      (analyzeSimpleMood text = "negative" ↔ positiveCount text < negativeCount text) ∧
      (analyzeSimpleMood text = "neutral" ↔ positiveCount text = negativeCount text)) ∧
    analyzeSimpleMood "ありがとう、嬉しいです".data = "positive" ∧
    analyzeSimpleMood "最悪だ、悲しい".data = "negative" ∧
    analyzeSimpleMood "これはテストです".data = "neutral" := by
  refine ⟨?_, by decide, by decide, by decide⟩
  intro text
  simp only [analyzeSimpleMood]
  split
  · next h1 =>
    refine ⟨?_, ?_, ?_⟩ <;> constructor <;> intro hh <;>
      first | rfl | (exact absurd hh (by decide)) | omega
  · split
    · next h1 h2 =>
      refine ⟨?_, ?_, ?_⟩ <;> constructor <;> intro hh <;>
        first | rfl | (exact absurd hh (by decide)) | omega
    · next h1 h2 =>
      refine ⟨?_, ?_, ?_⟩ <;> constructor <;> intro hh <;>
        first | rfl | (exact absurd hh (by decide)) | omega

/-! ## Claim C9: keyword counts are counts of distinct keywords -/

theorem countP_congr_mem {α : Type} (p q : α → Bool) :
    ∀ l : List α, (∀ a ∈ l, p a = q a) → l.countP p = l.countP q := by
  intro l
  induction l with
  | nil => intro _; rfl
  | cons a l ih =>
    intro h
    rw [List.countP_cons, List.countP_cons, h a (List.mem_cons_self a l),
      ih (fun b hb => h b (List.mem_cons_of_mem a hb))]

/-- Claim C9: each fixed keyword contributes at most one to its count (a
keyword is tested once by `includes`), so the counts and the resulting mood
depend only on which keywords occur in the text; in particular repeating an
already-present keyword changes nothing. -/
theorem C9_distinct_keyword_counts (t1 t2 : List Char)
    (hp : ∀ w ∈ positiveWords, containsL w t1 = containsL w t2)
    (hn : ∀ w ∈ negativeWords, containsL w t1 = containsL w t2) :
    positiveCount t1 = positiveCount t2 ∧ negativeCount t1 = negativeCount t2 ∧
      analyzeSimpleMood t1 = analyzeSimpleMood t2 := by
  have h1 : positiveCount t1 = positiveCount t2 :=
    countP_congr_mem (fun w => containsL w t1) (fun w => containsL w t2) positiveWords hp
  have h2 : negativeCount t1 = negativeCount t2 :=
    countP_congr_mem (fun w => containsL w t1) (fun w => containsL w t2) negativeWords hn
  exact ⟨h1, h2, by simp only [analyzeSimpleMood, h1, h2]⟩

/-- Witness for C9: repeating a present keyword does not change the mood. -/
theorem C9_witness :
    analyzeSimpleMood "嬉しい".data = analyzeSimpleMood "嬉しい嬉しい".data :=
  (C9_distinct_keyword_counts "嬉しい".data "嬉しい嬉しい".data
    (by decide) (by decide)).2.2

/-! ## Claim C10: keyword extraction -/

/-- Claim C10: `extractKeywords` returns at most ten words, each of length
at least two and not a stop word, and the returned words occur in the same
order as in the lowercased, whitespace-split input (they form a sublist of
it). -/
theorem C10_keyword_properties (text : List Char) :
    (extractKeywords text).length ≤ 10 ∧
    (∀ w ∈ extractKeywords text, 2 ≤ w.length ∧ w ∉ stopWords) ∧
    (extractKeywords text).Sublist (splitWs (text.map toLowerChar)) := by
  refine ⟨?_, ?_, ?_⟩
  · simp only [extractKeywords]
    exact List.length_take_le 10 _
  · intro w hw
    simp only [extractKeywords] at hw
    have hw2 := (List.take_sublist 10 _).subset hw
    rw [List.mem_filter] at hw2
    obtain ⟨-, hcond⟩ := hw2
    rw [Bool.and_eq_true] at hcond
    obtain ⟨hlen, hstop⟩ := hcond
    exact ⟨by simpa using hlen, by simpa using hstop⟩
  · simp only [extractKeywords]
    exact (List.take_sublist 10 _).trans (List.filter_sublist _)

/-- Witness for C10 at a concrete text containing stop words. -/
theorem C10_witness : 2 ≤ "lean".data.length ∧ "lean".data ∉ stopWords :=
  (C10_keyword_properties "Lean の proof は assistant です".data).2.1
    "lean".data (by decide)

/-! ## Claim C5: extracted dates are range-checked and normalized -/

theorem digitChar_digit (n : Nat) (h : n < 10) : isDigitCh (Nat.digitChar n) = true := by
  interval_cases n <;> decide

theorem toDigitsCore_digits :
    ∀ (fuel n : Nat) (acc : List Char), (∀ c ∈ acc, isDigitCh c = true) →
      ∀ c ∈ Nat.toDigitsCore 10 fuel n acc, isDigitCh c = true := by
  intro fuel
  induction fuel with
  | zero => intro n acc hacc; simpa [Nat.toDigitsCore] using hacc
  | succ fuel ih =>
    intro n acc hacc
    have hd : isDigitCh (Nat.digitChar (n % 10)) = true :=
      digitChar_digit (n % 10) (Nat.mod_lt n (by norm_num))
    have hacc2 : ∀ c ∈ Nat.digitChar (n % 10) :: acc, isDigitCh c = true := by
      intro c hc
      rcases List.mem_cons.mp hc with rfl | hc
      · exact hd
      · exact hacc c hc
    simp only [Nat.toDigitsCore]
    split
    · exact hacc2
    · exact ih (n / 10) (Nat.digitChar (n % 10) :: acc) hacc2

theorem toDigitsCore_ne_nil :
    ∀ (fuel n : Nat) (acc : List Char), acc ≠ [] →
      Nat.toDigitsCore 10 fuel n acc ≠ [] := by
  intro fuel
  induction fuel with
  | zero => intro n acc h; simpa [Nat.toDigitsCore] using h
  | succ fuel ih =>
    intro n acc h
    simp only [Nat.toDigitsCore]
    split
    · simp
    · exact ih (n / 10) _ (by simp)

theorem toDigits_digits (n : Nat) : ∀ c ∈ Nat.toDigits 10 n, isDigitCh c = true :=
  toDigitsCore_digits (n + 1) n [] (by simp)

theorem toDigits_ne_nil (n : Nat) : Nat.toDigits 10 n ≠ [] := by
  show Nat.toDigitsCore 10 (n + 1) n [] ≠ []
  simp only [Nat.toDigitsCore]
  split
  · simp
  · exact toDigitsCore_ne_nil n (n / 10) _ (by simp)

theorem dedupKeepFirst_go_subset {α : Type} [DecidableEq α] :
    ∀ (l seen : List α) (x : α), x ∈ dedupKeepFirst.go seen l → x ∈ l := by
  intro l
  induction l with
  | nil => intro seen x hx; simp [dedupKeepFirst.go] at hx
  | cons a l ih =>
    intro seen x hx
    simp only [dedupKeepFirst.go] at hx
    split at hx
    · exact List.mem_cons_of_mem a (ih seen x hx)
    · rcases List.mem_cons.mp hx with rfl | hx
      · exact List.mem_cons_self _ _
      · exact List.mem_cons_of_mem a (ih (a :: seen) x hx)

theorem dedupKeepFirst_subset {α : Type} [DecidableEq α] (l : List α) (x : α)
    (h : x ∈ dedupKeepFirst l) : x ∈ l :=
  dedupKeepFirst_go_subset l [] x h

theorem fmtDate_normalized (y m d : Nat) (h1 : 1 ≤ m) (h2 : m ≤ 12) (h3 : 1 ≤ d)
    (h4 : d ≤ 31) : isNormalizedDate (fmtDate y m d) :=
  ⟨Nat.toDigits 10 y, m, d, toDigits_ne_nil y, toDigits_digits y,
    h1, h2, h3, h4, rfl⟩

theorem isoDateString_normalized (d : SimpleDate) (h : validRange d) :
    isNormalizedDate (isoDateString d) := by
  refine ⟨padZeros 4 (Nat.toDigits 10 d.year), d.month, d.day, ?_, ?_,
    h.1, h.2.1, h.2.2.1, h.2.2.2, rfl⟩
  · intro hnil
    exact toDigits_ne_nil d.year (List.append_eq_nil.mp hnil).2
  · intro c hc
    rcases List.mem_append.mp hc with hc | hc
    · rw [List.eq_of_mem_replicate hc]
      decide
    · exact toDigits_digits d.year c hc

/-- Claim C5: whenever the ambient system dates are in range, every element
of `extractDates` is a normalized dash-separated date whose month lies in
1–12 and whose day lies in 1–31 with no calendar-length validation; in
particular the impossible date `2025-02-31` is extracted verbatim. -/
theorem C5_dates_normalized :
    (∀ (today tomorrow dayAfterTomorrow : SimpleDate) (text : List Char),
      validRange today → validRange tomorrow → validRange dayAfterTomorrow →
      ∀ s ∈ extractDates today tomorrow dayAfterTomorrow text, isNormalizedDate s) ∧
    "2025-02-31".data ∈
      extractDates ⟨2025, 4, 23⟩ ⟨2025, 4, 24⟩ ⟨2025, 4, 25⟩ "2025-02-31".data := by
  refine ⟨?_, by decide⟩
  intro today tomorrow dat text h1 h2 h3 s hs
  simp only [extractDates] at hs
  have hs2 := dedupKeepFirst_subset _ _ hs
  have hfilter : ∀ (ms : List (Nat × Nat × Nat)),
      s ∈ ms.filterMap (fun t =>
        if 1 ≤ t.2.1 ∧ t.2.1 ≤ 12 ∧ 1 ≤ t.2.2 ∧ t.2.2 ≤ 31 then
          some (fmtDate t.1 t.2.1 t.2.2) else none) →
      isNormalizedDate s := by
    intro ms hmem
    obtain ⟨t, -, heq⟩ := List.mem_filterMap.mp hmem
    split at heq
    · next hcond =>
      injection heq with heq
      subst heq
      exact fmtDate_normalized t.1 t.2.1 t.2.2 hcond.1 hcond.2.1 hcond.2.2.1 hcond.2.2.2
    · exact absurd heq (by simp)
  rcases List.mem_append.mp hs2 with hs3 | hd3
  · rcases List.mem_append.mp hs3 with hs4 | hd2
    · rcases List.mem_append.mp hs4 with hs5 | hd1
      · rcases List.mem_append.mp hs5 with hiso | hja
        · exact hfilter _ hiso
        · exact hfilter _ hja
      · split at hd1
        · rcases List.mem_singleton.mp hd1 with rfl
          exact isoDateString_normalized today h1
        · simp at hd1
    · split at hd2
      · rcases List.mem_singleton.mp hd2 with rfl
        exact isoDateString_normalized tomorrow h2
      · simp at hd2
  · split at hd3
    · rcases List.mem_singleton.mp hd3 with rfl
      exact isoDateString_normalized dat h3
    · simp at hd3

/-- Witness for C5: the concrete extraction of the calendar-impossible date
`2025-02-31` is normalized in the claimed sense. -/
theorem C5_dates_witness : isNormalizedDate "2025-02-31".data :=
  C5_dates_normalized.1 ⟨2025, 4, 23⟩ ⟨2025, 4, 24⟩ ⟨2025, 4, 25⟩
    "2025-02-31".data (by decide) (by decide) (by decide)
    "2025-02-31".data C5_dates_normalized.2

/-! ## Claim C6: dependence on the system date -/

/-- Claim C6, as stated, is false: on a text containing the relative
keyword 今日, `extractDates` returns the ambient system date, so two
invocations under different system dates disagree. -/
theorem C6_counterexample :
    extractDates ⟨2025, 4, 23⟩ ⟨2025, 4, 24⟩ ⟨2025, 4, 25⟩ "今日".data ≠
      extractDates ⟨2024, 1, 1⟩ ⟨2024, 1, 2⟩ ⟨2024, 1, 3⟩ "今日".data := by decide

/-- Claim C6 (amended): on every text containing none of the relative
keywords 今日, 明日, 明後日, `extractDates` is independent of the ambient
system dates — it is then a pure function of the text alone. -/
theorem C6_amended_date_invariance (d1 d2 d3 e1 e2 e3 : SimpleDate)
    (text : List Char)
    (h1 : containsL "今日".data text = false)
    (h2 : containsL "明日".data text = false)
    (h3 : containsL "明後日".data text = false) :
    extractDates d1 d2 d3 text = extractDates e1 e2 e3 text := by
  simp [extractDates, h1, h2, h3]

/-- Witness for the amended C6 at a concrete text with an absolute date. -/
theorem C6_amended_witness :
    extractDates ⟨2025, 4, 23⟩ ⟨2025, 4, 24⟩ ⟨2025, 4, 25⟩
        "会議は2025-04-23です".data =
      extractDates ⟨1999, 12, 31⟩ ⟨2000, 1, 1⟩ ⟨2000, 1, 2⟩
        "会議は2025-04-23です".data :=
  C6_amended_date_invariance ⟨2025, 4, 23⟩ ⟨2025, 4, 24⟩ ⟨2025, 4, 25⟩
    ⟨1999, 12, 31⟩ ⟨2000, 1, 1⟩ ⟨2000, 1, 2⟩ "会議は2025-04-23です".data
    (by decide) (by decide) (by decide)

end AssistantsAI
